import Mathlib

/-!
Verification of the cachetree-redis storage backend (src/lib/store.js).

We shallow-embed the value-marshalling and command-normalization layer:
JavaScript values are modelled by the inductive type JSVal (numbers are
modelled as integers plus the NaN value; other floating-point numbers are
out of scope), the host JSON.stringify / JSON.parse builtins are modelled
by an executable serializer and recursive-descent parser over this value
domain, and each public store operation is modelled as a pure function
from the store configuration and the raw argument list to a record of
observable effects: the return value, the engine command issued (if any),
and the synchronous callback invocation (if any). Engine replies are
processed by separate reply functions mirroring the callback closures in
the source.
-/

namespace CachetreeRedis

/-- Model of a JavaScript runtime value, as used by the store layer.
Numbers are modelled as integers plus NaN; buffers carry their utf8
string content; functions are opaque ids; objects are association lists
of own enumerable string-keyed properties. -/
inductive JSVal where
  | vUndef : JSVal
  | vNull : JSVal
  | vBool : Bool → JSVal
  | vNum : Int → JSVal
  | vNaN : JSVal
  | vStr : String → JSVal
  | vBuf : String → JSVal
  | vArr : List JSVal → JSVal
  | vObj : List (String × JSVal) → JSVal
  | vFunc : Nat → JSVal
deriving Repr

open JSVal

/-- Buffer.isBuffer test. -/
def isBuffer : JSVal → Bool
  | vBuf _ => true
  | _ => false

/-- typeof x === "string" test. -/
def isStringV : JSVal → Bool
  | vStr _ => true
  | _ => false

/-- typeof x === "number" test (NaN is a number in JavaScript). -/
def isNumberV : JSVal → Bool
  | vNum _ => true
  | vNaN => true
  | _ => false

/-- typeof x === "function" test. -/
def isFuncV : JSVal → Bool
  | vFunc _ => true
  | _ => false

/-- Array.isArray test. -/
def isArrV : JSVal → Bool
  | vArr _ => true
  | _ => false

/-- The x === Object(x) test: true exactly for object-like values
(objects, arrays, functions; buffers are objects too). -/
def isObjectLike : JSVal → Bool
  | vObj _ => true
  | vArr _ => true
  | vFunc _ => true
  | vBuf _ => true
  | _ => false

/-- JavaScript truthiness: undefined, null, false, 0, NaN and the empty
string are falsy, everything else is truthy. -/
def truthy : JSVal → Bool
  | vUndef => false
  | vNull => false
  | vBool b => b
  | vNum n => n != 0
  | vNaN => false
  | vStr s => s ≠ ""
  | _ => true

/-- Decimal digit characters for rendering numbers. -/
def digitChar (n : Nat) : Char :=
  Char.ofNat (48 + n)

/-- Decimal rendering of a natural number, most significant digit first.
Models the host number-to-string conversion on integer values. -/
def natChars (n : Nat) : List Char :=
  if _h : n < 10 then [digitChar n]
  else natChars (n / 10) ++ [digitChar (n % 10)]
decreasing_by exact Nat.div_lt_self (by omega) (by omega)

/-- Decimal rendering of an integer (String(n) for integer n). -/
def intChars (n : Int) : List Char :=
  if n < 0 then '-' :: natChars n.natAbs else natChars n.natAbs

/-- String(n) for an integer number. -/
def intStr (n : Int) : String :=
  String.mk (intChars n)

mutual

/-- The String(x) coercion (models the host ToString on the values the
store layer can meet; the source text of a function is not modelled). -/
def jsString : JSVal → String
  | vUndef => "undefined"
  | vNull => "null"
  | vBool b => if b then "true" else "false"
  | vNum n => intStr n
  | vNaN => "NaN"
  | vStr s => s
  | vBuf s => s
  | vArr l => joinElems l
  | vObj _ => "[object Object]"
  | vFunc _ => "function"

/-- Array.prototype.join with the "," delimiter as used by String(array):
null and undefined elements become empty strings. -/
def joinElems : List JSVal → String
  | [] => ""
  | [x] => joinElem x
  | x :: xs => joinElem x ++ "," ++ joinElems xs

/-- One element of Array.prototype.join: null and undefined coerce to the
empty string, everything else through String(x). -/
def joinElem : JSVal → String
  | vUndef => ""
  | vNull => ""
  | v => jsString v

end

/-- Array.prototype.join with an arbitrary delimiter string. -/
def joinWith (delim : String) : List JSVal → String
  | [] => ""
  | [x] => joinElem x
  | x :: xs => joinElem x ++ delim ++ joinWith delim xs

/-- Store configuration: the immutable delimiter and autoCast properties
set by the constructor. The source also reads a property named
underscore-autoCast in get, which the constructor never assigns; that
read is modelled explicitly by underscoreAutoCast below. -/
structure Store where
  autoCast : Bool
  delimiter : String
deriving Repr

/-- The value of the (never assigned) underscore-prefixed autoCast
property read by RedisStore.prototype.get: always undefined. -/
def underscoreAutoCast (_st : Store) : JSVal := vUndef

/-- RedisStore.prototype.cacheKey: a non-empty array is joined with the
configured delimiter; a non-empty string or a number is returned
unchanged; everything else yields undefined (the invalid-key result). -/
def cacheKey (st : Store) (key : JSVal) : JSVal :=
  match key with
  | vArr l =>
    if l.length > 0 then vStr (joinWith st.delimiter l) else vUndef
  | vStr s => if s ≠ "" then vStr s else vUndef
  | vNum n => vNum n
  | vNaN => vNaN
  | _ => vUndef

/-- A store with the default configuration (delimiter ":", autoCast on). -/
def stdStore : Store := ⟨true, ":"⟩

/-- A store constructed with autoCast disabled. -/
def noCastStore : Store := ⟨false, ":"⟩

/-- Lowercase hexadecimal digit characters. -/
def hexChar (n : Nat) : Char :=
  if n < 10 then digitChar n else Char.ofNat (97 + (n - 10))

/-- Decode one hexadecimal digit character (either case accepted, as the
host JSON parser does). -/
def decodeHex (c : Char) : Option Nat :=
  if 48 ≤ c.toNat ∧ c.toNat ≤ 57 then some (c.toNat - 48)
  else if 97 ≤ c.toNat ∧ c.toNat ≤ 102 then some (c.toNat - 87)
  else if 65 ≤ c.toNat ∧ c.toNat ≤ 70 then some (c.toNat - 55)
  else none

/-- JSON string escaping of one character, as JSON.stringify performs it:
quote and backslash are backslash-escaped, the named control characters
use their short escapes, other control characters use a hexadecimal
escape, and all remaining characters are untouched. -/
def escapeChar (c : Char) : List Char :=
  if c = '"' then ['\\', '"']
  else if c = '\\' then ['\\', '\\']
  else if c = '\n' then ['\\', 'n']
  else if c = '\r' then ['\\', 'r']
  else if c = '\t' then ['\\', 't']
  else if c.toNat = 8 then ['\\', 'b']
  else if c.toNat = 12 then ['\\', 'f']
  else if c.toNat < 32 then ['\\', 'u', '0', '0', hexChar (c.toNat / 16), hexChar (c.toNat % 16)]
  else [c]

/-- JSON string escaping of a character list. -/
def escapeChars : List Char → List Char
  | [] => []
  | c :: cs => escapeChar c ++ escapeChars cs

/-- A JSON string literal: quote, escaped content, quote. -/
def quoteChars (s : List Char) : List Char :=
  '"' :: (escapeChars s ++ ['"'])

/-- Join rendered pieces with commas. -/
def joinComma : List (List Char) → List Char
  | [] => []
  | [x] => x
  | x :: xs => x ++ ',' :: joinComma xs

mutual

/-- Model of the host JSON.stringify builtin on the embedded value
domain: none models the undefined result (for undefined and functions).
NaN serializes as null, as the host does. The Buffer toJSON protocol is
not modelled (no claim reaches it), so buffers also map to none. -/
def serV : JSVal → Option (List Char)
  | vUndef => none
  | vFunc _ => none
  | vBuf _ => none
  | vNull => some ['n', 'u', 'l', 'l']
  | vNaN => some ['n', 'u', 'l', 'l']
  | vBool b => some (if b then ['t', 'r', 'u', 'e'] else ['f', 'a', 'l', 's', 'e'])
  | vNum n => some (intChars n)
  | vStr s => some (quoteChars s.data)
  | vArr l => some ('[' :: (joinComma (serItems l) ++ [']']))
  | vObj m => some ('\x7b' :: (joinComma (serMems m) ++ ['\x7d']))

/-- Array elements: an element whose serialization is undefined renders
as null, as JSON.stringify does. -/
def serItems : List JSVal → List (List Char)
  | [] => []
  | x :: xs => ((serV x).getD ['n', 'u', 'l', 'l']) :: serItems xs

/-- Object members: a member whose value serializes to undefined is
skipped, as JSON.stringify does. -/
def serMems : List (String × JSVal) → List (List Char)
  | [] => []
  | (k, v) :: rest =>
    match serV v with
    | none => serMems rest
    | some sv => (quoteChars k.data ++ ':' :: sv) :: serMems rest

end

/-- JSON.stringify as a String-valued model. -/
def jsonStringify (v : JSVal) : Option String :=
  (serV v).map String.mk

/-- Digit test for the parser. -/
def isDigitCh (c : Char) : Bool :=
  48 ≤ c.toNat && c.toNat ≤ 57

/-- Split a leading run of decimal digits from the input. -/
def takeDigits : List Char → List Char × List Char
  | c :: cs =>
    if isDigitCh c then
      let p := takeDigits cs
      (c :: p.1, p.2)
    else ([], c :: cs)
  | [] => ([], [])

/-- Numeric value of a digit-character list. -/
def digitsVal (ds : List Char) : Nat :=
  ds.foldl (fun a c => 10 * a + (c.toNat - 48)) 0

/-- Parse a JSON number. Only integers are modelled: a fraction or
exponent part makes the parse fail, since its float value is outside the
embedded domain. Leading zeros are rejected as JSON requires. -/
def parseNum (cs : List Char) : Option (JSVal × List Char) :=
  let p : Bool × List Char := match cs with
    | [] => (false, [])
    | c :: r => if c = '-' then (true, r) else (false, c :: r)
  let d := takeDigits p.2
  if d.1 = [] then none
  else if d.1.length > 1 ∧ d.1.headD '0' = '0' then none
  else if d.2.headD ' ' = '.' ∨ d.2.headD ' ' = 'e' ∨ d.2.headD ' ' = 'E' then none
  else
    let n : Int := Int.ofNat (digitsVal d.1)
    some (vNum (if p.1 then -n else n), d.2)

/-- Decode a unicode code point into a character; surrogate code points
are rejected (surrogate-pair decoding is not modelled). -/
def charOfNat (n : Nat) : Option Char :=
  if n < 55296 then some (Char.ofNat n)
  else if 57344 ≤ n ∧ n < 1114112 then some (Char.ofNat n)
  else none

/-- Decode a single-character JSON escape (the u escape is handled
separately). -/
def decodeEscape (e : Char) : Option Char :=
  if e = '"' then some '"'
  else if e = '\\' then some '\\'
  else if e = '/' then some '/'
  else if e = 'n' then some '\n'
  else if e = 'r' then some '\r'
  else if e = 't' then some '\t'
  else if e = 'b' then some (Char.ofNat 8)
  else if e = 'f' then some (Char.ofNat 12)
  else none

/-- Parse the body of a JSON string literal (after the opening quote),
accumulating decoded characters in reverse; fuelled so that recursion is
structural (one fuel per decoded character suffices). Unescaped control
characters are rejected, as JSON requires. -/
def parseStrBody : Nat → List Char → List Char → Option (String × List Char)
  | 0, _, _ => none
  | Nat.succ fuel, cs, acc =>
    match cs with
    | [] => none
    | c :: rest =>
      if c = '"' then some (String.mk acc.reverse, rest)
      else if c = '\\' then
        match rest with
        | [] => none
        | e :: rest2 =>
          if e = 'u' then
            match rest2 with
            | h1 :: h2 :: h3 :: h4 :: rest3 =>
              (match decodeHex h1, decodeHex h2, decodeHex h3, decodeHex h4 with
               | some a, some b, some c2, some d => charOfNat (((a * 16 + b) * 16 + c2) * 16 + d)
               | _, _, _, _ => none).bind
                (fun ch => parseStrBody fuel rest3 (ch :: acc))
            | _ => none
          else (decodeEscape e).bind (fun ch => parseStrBody fuel rest2 (ch :: acc))
      else if c.toNat < 32 then none
      else parseStrBody fuel rest (c :: acc)

mutual

/-- Recursive-descent JSON value parser, fuelled so that recursion is
structural; jsonParse below supplies sufficient fuel. Whitespace
tolerance of the host parser is not modelled (no claim depends on it). -/
def parseVal : Nat → List Char → Option (JSVal × List Char)
  | 0, _ => none
  | Nat.succ fuel, cs =>
    match cs with
    | [] => none
    | c :: rest =>
      if c = 'n' then
        match rest with
        | 'u' :: 'l' :: 'l' :: r => some (vNull, r)
        | _ => none
      else if c = 't' then
        match rest with
        | 'r' :: 'u' :: 'e' :: r => some (vBool true, r)
        | _ => none
      else if c = 'f' then
        match rest with
        | 'a' :: 'l' :: 's' :: 'e' :: r => some (vBool false, r)
        | _ => none
      else if c = '"' then
        match parseStrBody fuel rest [] with
        | some (s, r) => some (vStr s, r)
        | none => none
      else if c = '[' then
        match rest with
        | [] => none
        | r0 :: r1 =>
          if r0 = ']' then some (vArr [], r1)
          else
            match parseItems fuel (r0 :: r1) with
            | some (l, r) => some (vArr l, r)
            | none => none
      else if c = '\x7b' then
        match rest with
        | [] => none
        | r0 :: r1 =>
          if r0 = '\x7d' then some (vObj [], r1)
          else
            match parseMems fuel (r0 :: r1) with
            | some (m, r) => some (vObj m, r)
            | none => none
      else parseNum (c :: rest)

/-- Parse one-or-more comma-separated array items up to the closing
bracket. -/
def parseItems : Nat → List Char → Option (List JSVal × List Char)
  | 0, _ => none
  | Nat.succ fuel, cs =>
    match parseVal fuel cs with
    | none => none
    | some (v, r) =>
      match r with
      | ']' :: r2 => some ([v], r2)
      | ',' :: r2 =>
        match parseItems fuel r2 with
        | some (l, r3) => some (v :: l, r3)
        | none => none
      | _ => none

/-- Parse one-or-more comma-separated object members up to the closing
brace. -/
def parseMems : Nat → List Char → Option (List (String × JSVal) × List Char)
  | 0, _ => none
  | Nat.succ fuel, cs =>
    match cs with
    | [] => none
    | c :: rest =>
      if c = '"' then
        match parseStrBody fuel rest [] with
        | some (k, r1) =>
          match r1 with
          | ':' :: r2 =>
            match parseVal fuel r2 with
            | some (v, r3) =>
              match r3 with
              | '\x7d' :: r4 => some ([(k, v)], r4)
              | ',' :: r4 =>
                match parseMems fuel r4 with
                | some (m, r5) => some ((k, v) :: m, r5)
                | none => none
              | _ => none
            | none => none
          | _ => none
        | none => none
      else none

end

/-- Model of the host JSON.parse builtin: parse a complete value with
generous fuel; any unconsumed trailing input is a parse failure. -/
def jsonParse (s : String) : Option JSVal :=
  match parseVal (2 * s.length + 2) s.data with
  | some (v, []) => some v
  | _ => none

/-- The convertValue helper of the source: null and undefined pass
through, buffers become their utf8 text, and any string is tentatively
JSON-parsed (keeping the string on parse failure) unless the cast
argument is strictly equal to false. -/
def convertValue (value cast : JSVal) : JSVal :=
  match value, cast with
  | vNull, _ => vNull
  | vUndef, _ => vUndef
  | vBuf s, vBool false => vStr s
  | vBuf s, _ => (jsonParse s).getD (vStr s)
  | vStr s, vBool false => vStr s
  | vStr s, _ => (jsonParse s).getD (vStr s)
  | v, _ => v

/-- RedisStore.prototype._stringify: buffers and strings pass through, as
does any value when autoCast is off; otherwise JSON.stringify (whose
undefined result for functions and undefined is modelled as vUndef). -/
def _stringify (st : Store) (value : JSVal) : JSVal :=
  if !st.autoCast || isBuffer value || isStringV value then value
  else
    match jsonStringify value with
    | some s => vStr s
    | none => vUndef

/-- RedisStore.prototype._parse: buffers pass through; otherwise
convertValue with the autoCast flag. -/
def _parse (st : Store) (value : JSVal) : JSVal :=
  if isBuffer value then value
  else convertValue value (vBool st.autoCast)

/-- Observable value of one property produced by wrapData: null,
undefined, and (in raw-buffer mode) buffers pass through; anything else
is converted on access with the given cast flag. -/
def wrapVal (rawBuffer : Bool) (cast : JSVal) (value : JSVal) : JSVal :=
  match value with
  | vNull => vNull
  | vUndef => vUndef
  | v => if rawBuffer && isBuffer v then v else convertValue v cast

/-- Define a property only if not already present (the hasOwnProperty
guard in wrapData): the first write of a name wins. -/
def insertIfAbsent (m : List (String × JSVal)) (k : String) (v : JSVal) :
    List (String × JSVal) :=
  if m.any (fun p => p.1 == k) then m else m ++ [(k, v)]

/-- Plain JavaScript property assignment on an object modelled as an
association list: a later write of the same name overwrites. -/
def objSet (m : List (String × JSVal)) (k : String) (v : JSVal) :
    List (String × JSVal) :=
  if m.any (fun p => p.1 == k) then m.map (fun p => if p.1 == k then (k, v) else p)
  else m ++ [(k, v)]

/-- Index keys of an array viewed as an object (Object.keys on arrays). -/
def indexEntries (i : Nat) : List JSVal → List (String × JSVal)
  | [] => []
  | x :: xs => (String.mk (natChars i), x) :: indexEntries (i + 1) xs

/-- Own enumerable entries of an object-like value: objects give their
properties, arrays their indexed elements; functions have none. The
index properties of buffers are not modelled (no claim reaches them). -/
def entriesOfValue : JSVal → List (String × JSVal)
  | vObj m => m
  | vArr l => indexEntries 0 l
  | _ => []

/-- Engine commands the store layer can issue. -/
inductive Command where
  | hgetall (key : JSVal)
  | hmget (key : JSVal) (fields : List JSVal)
  | hmset (key : JSVal) (data : Option (List (String × JSVal)))
  | hexists (key : JSVal) (field : JSVal)
  | hdel (args : List JSVal)
  | hkeys (key : JSVal)
  | keysPattern (pattern : JSVal)
  | delKeys (keys : List JSVal)
deriving Repr

/-- Return value of a public operation: the facade instance itself, or
the value returned by a callback invoked in return position. -/
inductive RetVal where
  | self
  | cbRet (v : JSVal)
deriving Repr

/-- Observable synchronous effect of one public operation invocation:
its return value, the engine command issued (if any), the synchronous
callback invocation (error message and second argument, if any), the
invocation of a misplaced function argument with an error (if any), and
the post-call contents of a caller-supplied data object when the write
path rewrites it in place. -/
structure OpEffect where
  ret : RetVal
  command : Option Command
  syncCb : Option (Option String × JSVal)
  preCb : Option String
  dataState : Option (List (String × JSVal))
deriving Repr

/-- One level of array splatting: a single array argument is unwrapped
in place. -/
def unwrapSingleArray (args : List JSVal) : List JSVal :=
  match args with
  | [vArr l] => l
  | _ => args

/-- createBuffer on the key passed by get in raw mode (the source calls
Buffer.from on the composed key; content coercion models the string
case, the only one the claims reach). -/
def createBuffer (v : JSVal) : JSVal :=
  vBuf (jsString v)

/-- RedisStore.prototype.get, synchronous part: pop the callback, shift
and compose the key, unwrap a single array argument, recognise the
optional leading boolean as the raw-buffer flag, and choose between the
hash-get-all and hash-multi-get commands. -/
def getCore (st : Store) (keyIn : JSVal) (args : List JSVal) (cb : JSVal) : OpEffect :=
  let key := cacheKey st keyIn
  if ¬ isFuncV cb then ⟨RetVal.self, none, none, none, none⟩
  else if truthy key then
    let args1 := unwrapSingleArray args
    let pick := match args1 with
      | vBool _ :: _ => true
      | _ => false
    let asBuffer := match args1 with
      | vBool true :: _ => true
      | _ => false
    let args2 := if pick then args1.drop 1 else args1
    let key1 := if asBuffer then createBuffer key else key
    if args2.length == 0 then ⟨RetVal.self, some (Command.hgetall key1), none, none, none⟩
    else ⟨RetVal.self, some (Command.hmget key1 args2), none, none, none⟩
  else ⟨RetVal.self, none, some (some "Invalid key", vUndef), none, none⟩

/-- RedisStore.prototype.get: pop the callback, shift the raw key input,
and hand the pieces to getCore. -/
def getRun (st : Store) (argsIn : List JSVal) : OpEffect :=
  getCore st (argsIn.dropLast.headD vUndef) (argsIn.dropLast.drop 1) (argsIn.getLastD vUndef)

/-- Build objects from pairs with the first-write-wins wrapData guard. -/
def objFromPairs (ps : List (String × JSVal)) : List (String × JSVal) :=
  ps.foldl (fun m p => insertIfAbsent m p.1 p.2) []

/-- Reply processing of the hash-get-all command in get: each property
of an object reply is lazily converted with the raw-buffer flag and the
(undefined) underscore-autoCast property as cast flag. -/
def getReplyAll (st : Store) (asBuffer : Bool) (err : Option String) (data : JSVal) :
    Option String × JSVal :=
  if truthy data && isObjectLike data then
    (err, vObj (objFromPairs ((entriesOfValue data).map
      (fun p => (p.1, wrapVal asBuffer (underscoreAutoCast st) p.2)))))
  else (err, vUndef)

/-- The multi-field output object of get: requested field names paired
positionally with reply values, converted as in getReplyAll. -/
def buildMultiObj (st : Store) (asBuffer : Bool) (fields : List JSVal) (l : List JSVal) :
    List (String × JSVal) :=
  (List.zip fields l).foldl
    (fun m p => insertIfAbsent m (jsString p.1) (wrapVal asBuffer (underscoreAutoCast st) p.2)) []

/-- Reply processing of the hash-multi-get command in get: one requested
field delivers a single converted value, several deliver an object; an
undefined output is replaced by null. -/
def getReplyMulti (st : Store) (asBuffer : Bool) (fields : List JSVal)
    (err : Option String) (data : JSVal) : Option String × JSVal :=
  let output :=
    match data with
    | vArr l =>
      if fields.length == 1 then
        let val := l.headD vUndef
        if asBuffer && isBuffer val then val
        else convertValue val (underscoreAutoCast st)
      else if fields.length == l.length then
        vObj (buildMultiObj st asBuffer fields l)
      else vUndef
    | _ => vUndef
  match output with
  | vUndef => (err, vNull)
  | o => (err, o)

/-- The field/value pair loop of set for three-or-more remaining
arguments: pairs are consumed two at a time, values encoded, a trailing
unpaired argument ignored. -/
def buildPairs (st : Store) (m : List (String × JSVal)) : List JSVal → List (String × JSVal)
  | f :: v :: restL => buildPairs st (objSet m (jsString f) (_stringify st v)) restL
  | _ => m

/-- RedisStore.prototype.set, synchronous part. A truthy non-callable
last argument is pushed back into the argument list (the callback
becomes null); an empty argument list after unwrapping is the
Invalid-data error; a single object-like argument has each of its values
encoded in place and is sent as the data map (dataState records the
caller-visible mutated contents); a single non-object argument leaves
the data variable undefined yet still issues the hash-multi-set command;
otherwise arguments form field/value pairs. -/
def setCore (st : Store) (keyIn : JSVal) (args0 : List JSVal) (cb0 : JSVal) : OpEffect :=
  let key := cacheKey st keyIn
  let pushBack := truthy cb0 && !(isFuncV cb0)
  let args := if pushBack then args0 ++ [cb0] else args0
  let cb := if pushBack then vNull else cb0
  if truthy key then
    let args1 := unwrapSingleArray args
    if args1.length == 0 then
      ⟨RetVal.self, none, if isFuncV cb then some (some "Invalid data", vNum 0) else none, none, none⟩
    else
      let args2 := unwrapSingleArray args1
      match args2 with
      | [a] =>
        if isObjectLike a then
          let mutated := (entriesOfValue a).map (fun p => (p.1, _stringify st p.2))
          ⟨RetVal.self, some (Command.hmset key (some mutated)), none, none, some mutated⟩
        else
          ⟨RetVal.self, some (Command.hmset key none), none, none, none⟩
      | [f, v] =>
        ⟨RetVal.self, some (Command.hmset key (some [(jsString f, _stringify st v)])), none, none, none⟩
      | _ =>
        ⟨RetVal.self, some (Command.hmset key (some (buildPairs st [] args2))), none, none, none⟩
  else
    ⟨RetVal.self, none, if isFuncV cb then some (some "Invalid key", vNum 0) else none, none, none⟩

/-- RedisStore.prototype.set: pop the last argument, shift the raw key
input, and hand the pieces to setCore. -/
def setRun (st : Store) (argsIn : List JSVal) : OpEffect :=
  setCore st (argsIn.dropLast.headD vUndef) (argsIn.dropLast.drop 1) (argsIn.getLastD vUndef)

/-- RedisStore.prototype.del, synchronous part: a non-callable last
argument (even undefined) is pushed back, a single array argument is
unwrapped, the key is prepended and the hash-delete command issued. -/
def delCore (st : Store) (keyIn : JSVal) (args0 : List JSVal) (cb0 : JSVal) : OpEffect :=
  let key := cacheKey st keyIn
  let pushBack := !(isFuncV cb0)
  let args := if pushBack then args0 ++ [cb0] else args0
  let cb := if pushBack then vNull else cb0
  if truthy key then
    let args1 := unwrapSingleArray args
    ⟨RetVal.self, some (Command.hdel (key :: args1)), none, none, none⟩
  else
    ⟨RetVal.self, none, if isFuncV cb then some (some "Invalid key", vUndef) else none, none, none⟩

/-- RedisStore.prototype.del: pop the last argument, shift the raw key
input, and hand the pieces to delCore. -/
def delRun (st : Store) (argsIn : List JSVal) : OpEffect :=
  delCore st (argsIn.dropLast.headD vUndef) (argsIn.dropLast.drop 1) (argsIn.getLastD vUndef)

/-- Reply processing of the hash-delete command: the engine error is
passed to the callback when one is present. -/
def delReply (cbIsFunc : Bool) (err : Option String) : Option (Option String) :=
  if cbIsFunc then some err else none

/-- RedisStore.prototype.exists, synchronous part: a function in the key
or field position is invoked with an error; without a callable callback
the operation stops; an invalid key returns the result of calling the
callback with the Invalid-key error; otherwise the hash-field-exists
command is issued. -/
def existsRun (st : Store) (key field cb : JSVal) : OpEffect :=
  let pre :=
    if isFuncV key then some "Invalid key"
    else if isFuncV field then some "Invalid field"
    else none
  if ¬ isFuncV cb then ⟨RetVal.self, none, none, pre, none⟩
  else
    let k := cacheKey st key
    if ¬ truthy k then ⟨RetVal.cbRet vUndef, none, some (some "Invalid key", vUndef), pre, none⟩
    else ⟨RetVal.self, some (Command.hexists k field), none, pre, none⟩

/-- Buffer content accessor. -/
def bufContent : JSVal → String
  | vBuf s => s
  | _ => ""

/-- parseInt(s, 10): leading whitespace skipped, optional sign, decimal
digit prefix; NaN when no digits. -/
def parseIntJS (s : String) : JSVal :=
  let cs := s.data.dropWhile (fun c => c == ' ' || c == Char.ofNat 9 || c == Char.ofNat 10 || c == Char.ofNat 13)
  let p := match cs with
    | '-' :: r => (true, r)
    | '+' :: r => (false, r)
    | _ => (false, cs)
  let d := takeDigits p.2
  if d.1 = [] then vNaN
  else
    let n : Int := Int.ofNat (digitsVal d.1)
    vNum (if p.1 then -n else n)

/-- Reply processing of the hash-field-exists command: the engine error
is dropped and the callback always receives null as the error with the
strict comparison of the (possibly buffer-decoded) reply against 1. -/
def existsReply (_err : Option String) (ex : JSVal) : Option String × JSVal :=
  let val := if isBuffer ex then parseIntJS (bufContent ex) else ex
  (none, vBool (match val with
    | vNum n => n == 1
    | _ => false))

/-- RedisStore.prototype.fields, synchronous part. -/
def fieldsRun (st : Store) (key cb : JSVal) : OpEffect :=
  let pre := if isFuncV key then some "Invalid key" else none
  if ¬ isFuncV cb then ⟨RetVal.self, none, none, pre, none⟩
  else
    let k := cacheKey st key
    if ¬ truthy k then ⟨RetVal.cbRet vUndef, none, some (some "Invalid key", vUndef), pre, none⟩
    else ⟨RetVal.self, some (Command.hkeys k), none, pre, none⟩

/-- Array.prototype.map over convertValue: map passes the element index
as the second (cast) argument of convertValue. -/
def mapIdxConvert : Nat → List JSVal → List JSVal
  | _, [] => []
  | i, x :: xs => convertValue x (vNum (Int.ofNat i)) :: mapIdxConvert (i + 1) xs

/-- Reply processing of the hash-list-fields command: an array reply is
mapped through convertValue (receiving each index as cast flag), any
other reply passes through; the engine error is passed along. -/
def fieldsReply (err : Option String) (fieldsV : JSVal) : Option String × JSVal :=
  match fieldsV with
  | vArr l => (err, vArr (mapIdxConvert 0 l))
  | v => (err, v)

/-- RedisStore.prototype.keys, synchronous part. -/
def keysRun (st : Store) (pattern cb : JSVal) : OpEffect :=
  if isFuncV pattern then ⟨RetVal.self, none, none, some "Invalid pattern", none⟩
  else if ¬ isFuncV cb then ⟨RetVal.self, none, none, none, none⟩
  else
    let p := if isArrV pattern then cacheKey st pattern else pattern
    if (isStringV p && truthy p) || isNumberV p then
      ⟨RetVal.self, some (Command.keysPattern p), none, none, none⟩
    else ⟨RetVal.self, none, some (some "Invalid pattern", vUndef), none, none⟩

/-- Reply processing of the key-pattern-search command: identical in
shape to fieldsReply. -/
def keysReply (err : Option String) (keysV : JSVal) : Option String × JSVal :=
  match keysV with
  | vArr l => (err, vArr (mapIdxConvert 0 l))
  | v => (err, v)

/-- RedisStore.prototype.flush, synchronous part: the last argument is
taken as callback only when it is not an array; each remaining argument
is replaced by its composed key and one multi-key delete is issued. -/
def flushRun (st : Store) (argsIn : List JSVal) : OpEffect :=
  let hasCb := argsIn.length > 0 && !(isArrV (argsIn.getLastD vUndef))
  let cb := if hasCb then argsIn.getLastD vUndef else vUndef
  let args0 := if hasCb then argsIn.dropLast else argsIn
  let args1 := unwrapSingleArray args0
  if args1.length > 0 then
    ⟨RetVal.self, some (Command.delKeys (args1.map (cacheKey st))), none, none, none⟩
  else
    ⟨RetVal.self, none, if isFuncV cb then some (some "Invalid key", vUndef) else none, none, none⟩

/-- The character list JSON.stringify produces for a value (empty when
the result is the undefined result); total companion of serV for use in
statements. -/
def serChars (v : JSVal) : List Char :=
  (serV v).getD []

mutual

/-- JSON-representable values of the embedded domain: null, booleans,
integer numbers, strings, and arrays and objects built from such values
(no undefined, NaN, buffers or functions anywhere). -/
def isJsonTree : JSVal → Bool
  | vNull => true
  | vBool _ => true
  | vNum _ => true
  | vStr _ => true
  | vArr l => isJsonTreeL l
  | vObj m => isJsonTreeM m
  | _ => false

/-- All elements of a list are JSON trees. -/
def isJsonTreeL : List JSVal → Bool
  | [] => true
  | x :: xs => isJsonTree x && isJsonTreeL xs

/-- All values of a member list are JSON trees. -/
def isJsonTreeM : List (String × JSVal) → Bool
  | [] => true
  | (_, v) :: rest => isJsonTree v && isJsonTreeM rest

end

mutual

/-- Fuel measure for the parser round trip: strings need one fuel per
decoded character. -/
def jsize : JSVal → Nat
  | vArr l => 1 + jsizeL l
  | vObj m => 1 + jsizeM m
  | vStr str => str.length + 2
  | _ => 1

/-- Fuel measure of an item list. -/
def jsizeL : List JSVal → Nat
  | [] => 1
  | x :: xs => 1 + jsize x + jsizeL xs

/-- Fuel measure of a member list: keys are parsed as strings, so they
contribute their length. -/
def jsizeM : List (String × JSVal) → Nat
  | [] => 1
  | (k, v) :: rest => k.length + 2 + jsize v + jsizeM rest

end

/-- Continuations occurring after a serialized value inside a larger
serialized term: empty, or starting with a separator or closing bracket,
never with a character that could extend a number literal. -/
def restOk : List Char → Bool
  | [] => true
  | c :: _ => !(isDigitCh c) && c != Char.ofNat 46 && c != 'e' && c != 'E'

/-! ### Helper lemmas -/

/-- Splitting the argument list of get at the popped callback and the
shifted key input. -/
theorem getRun_split (st : Store) (x : JSVal) (mid : List JSVal) (y : JSVal) :
    getRun st ((x :: mid) ++ [y]) = getCore st x mid y := by
  unfold getRun
  rw [List.getLastD_concat, List.dropLast_concat]
  rfl

/-- Splitting the argument list of set at the popped last argument and
the shifted key input. -/
theorem setRun_split (st : Store) (x : JSVal) (mid : List JSVal) (y : JSVal) :
    setRun st ((x :: mid) ++ [y]) = setCore st x mid y := by
  unfold setRun
  rw [List.getLastD_concat, List.dropLast_concat]
  rfl

/-- Splitting the argument list of del at the popped last argument and
the shifted key input. -/
theorem delRun_split (st : Store) (x : JSVal) (mid : List JSVal) (y : JSVal) :
    delRun st ((x :: mid) ++ [y]) = delCore st x mid y := by
  unfold delRun
  rw [List.getLastD_concat, List.dropLast_concat]
  rfl

/-! ### Claim theorems -/

/-- Claim C1, counterexample: the key composer applied to the non-empty
array holding one empty-string segment joins to the EMPTY string, so the
claimed "the result is a non-empty string" fails at this input. -/
theorem cacheKey_join_empty_counterexample :
    cacheKey stdStore (vArr [vStr ""]) = vStr "" := by
  simp [cacheKey, joinWith, joinElem, jsString, stdStore]

/-- Claim C1 (amended): a non-empty array is joined into one string by
concatenating its elements, coerced to string form, with the configured
delimiter between consecutive elements (compose of a two-element array
equals first, delimiter, second) — the result can be the empty string
when every segment coerces to the empty string; a non-empty string or
any number input (including NaN) is returned unchanged; every other
input (empty array, empty string, null, undefined, boolean, non-array
object) yields the invalid-key result undefined. -/
theorem cacheKey_spec (st : Store) (a b : JSVal) (l : List JSVal) (s : String)
    (n : Int) (bb : Bool) (o : List (String × JSVal))
    (hl : l ≠ []) (hs : s ≠ "") :
    cacheKey st (vArr [a, b]) = vStr (joinElem a ++ st.delimiter ++ joinElem b) ∧
    cacheKey st (vArr l) = vStr (joinWith st.delimiter l) ∧
    cacheKey st (vStr s) = vStr s ∧
    cacheKey st (vNum n) = vNum n ∧
    cacheKey st vNaN = vNaN ∧
    cacheKey st (vArr []) = vUndef ∧
    cacheKey st (vStr "") = vUndef ∧
    cacheKey st vNull = vUndef ∧
    cacheKey st vUndef = vUndef ∧
    cacheKey st (vBool bb) = vUndef ∧
    cacheKey st (vObj o) = vUndef := by
  refine ⟨?_, ?_, ?_, ?_, ?_, ?_, ?_, ?_, ?_, ?_, ?_⟩
  · simp [cacheKey, joinWith]
  · cases l with
    | nil => exact absurd rfl hl
    | cons x xs => simp [cacheKey]
  · simp [cacheKey, hs]
  · rfl
  · rfl
  · rfl
  · simp [cacheKey]
  · rfl
  · rfl
  · rfl
  · rfl

/-- Claim C1, witness for the amended theorem at concrete inputs. -/
theorem cacheKey_spec_witness :
    cacheKey stdStore (vArr [vStr "icao", vStr "more"])
        = vStr (joinElem (vStr "icao") ++ stdStore.delimiter ++ joinElem (vStr "more")) ∧
    cacheKey stdStore (vArr [vStr "x"]) = vStr (joinWith stdStore.delimiter [vStr "x"]) ∧
    cacheKey stdStore (vStr "k") = vStr "k" ∧
    cacheKey stdStore (vNum 5) = vNum 5 ∧
    cacheKey stdStore vNaN = vNaN ∧
    cacheKey stdStore (vArr []) = vUndef ∧
    cacheKey stdStore (vStr "") = vUndef ∧
    cacheKey stdStore vNull = vUndef ∧
    cacheKey stdStore vUndef = vUndef ∧
    cacheKey stdStore (vBool true) = vUndef ∧
    cacheKey stdStore (vObj []) = vUndef :=
  cacheKey_spec stdStore (vStr "icao") (vStr "more") [vStr "x"] "k" 5 true []
    (by simp) (by simp)

/-- Claim C3: the claim says that with autoCast disabled every read
delivers the raw stored string. The code violates it: get converts the
reply with the never-assigned underscore-autoCast property (undefined),
and convertValue treats any cast value other than the boolean false as
permission to parse, so the stored text "13" is delivered as the number
13 even on a store built with autoCast disabled. The last conjunct shows
the documented decoder _parse (which the claim describes, and which the
test suite exercises directly) would indeed return the raw string. -/
theorem get_casts_despite_autoCast_disabled :
    (getRun noCastStore [vStr "icao", vStr "xray", vFunc 0]).command
      = some (Command.hmget (vStr "icao") [vStr "xray"]) ∧
    getReplyMulti noCastStore false [vStr "xray"] none (vArr [vStr "13"])
      = (none, vNum 13) ∧
    _parse noCastStore (vStr "13") = vStr "13" :=
  ⟨rfl, rfl, rfl⟩

/-- Claim C4: the claim says a write whose arguments reduce to exactly
one non-mapping argument is rejected with an Invalid-data error and no
engine command. The code violates it: the data variable simply stays
undefined and the hash-multi-set command is still issued with it, while
the callback receives no Invalid-data error. -/
theorem set_single_nonmapping_issues_command :
    setRun stdStore [vStr "icao", vStr "alpha", vFunc 0]
      = ⟨RetVal.self, some (Command.hmset (vStr "icao") none), none, none, none⟩ :=
  rfl

/-- Claim C5: the claim says every engine error is propagated unmodified
to the completion callback, naming exists in particular. The code
violates it in exists: the hash-field-exists reply handler ignores its
error argument entirely and always invokes the callback with null, so an
engine error surfaces as a successful false answer. -/
theorem exists_swallows_engine_error :
    (existsRun stdStore (vStr "icao") (vStr "alpha") (vFunc 0)).command
      = some (Command.hexists (vStr "icao") (vStr "alpha")) ∧
    existsReply (some "connection lost") vUndef = (none, vBool false) :=
  ⟨rfl, rfl⟩

/-- Claim C8: the claim says every public operation returns the facade
instance on every argument shape. The code violates it: exists and
fields, on an invalid key with a callable callback, return the result of
invoking the callback (undefined for an ordinary callback) instead of
the instance, although their own doc comments say they return this for
chaining. -/
theorem exists_and_fields_return_callback_result :
    existsRun stdStore vNull (vStr "alpha") (vFunc 0)
      = ⟨RetVal.cbRet vUndef, none, some (some "Invalid key", vUndef), none, none⟩ ∧
    fieldsRun stdStore vNull (vFunc 0)
      = ⟨RetVal.cbRet vUndef, none, some (some "Invalid key", vUndef), none, none⟩ :=
  ⟨rfl, rfl⟩

/-- Claim C6, counterexample: with no callable anywhere, set and del are
not no-ops — the non-callable last argument is pushed back into the
argument list and the engine command is still issued. -/
theorem set_del_without_callback_issue_commands :
    (setRun stdStore [vStr "icao", vStr "alpha", vStr "dot dash"]).command
      = some (Command.hmset (vStr "icao") (some [("alpha", vStr "dot dash")])) ∧
    (delRun stdStore [vStr "icao", vStr "alpha"]).command
      = some (Command.hdel [vStr "icao", vStr "alpha"]) := by
  constructor
  · rw [show setRun stdStore [vStr "icao", vStr "alpha", vStr "dot dash"]
        = setCore stdStore (vStr "icao") [vStr "alpha"] (vStr "dot dash") from
      setRun_split stdStore (vStr "icao") [vStr "alpha"] (vStr "dot dash")]
    simp [setCore, unwrapSingleArray, cacheKey, truthy, jsString, _stringify,
      isStringV, isBuffer, isFuncV, stdStore]
  · rfl

/-- Claim C6 (amended): only get is a no-op when the callback position
holds no callable — it returns the facade with no callback invocation
and no engine command, for every argument list. For set and del a
non-callable trailing argument is pushed back into the argument list and
the operation proceeds fire-and-forget: the engine command is issued
with a noop (or guarded) callback and no user callback is invoked. -/
theorem missing_callback_behaviour (st : Store) (argsG : List JSVal) (k f v : String)
    (hcb : isFuncV (argsG.getLastD vUndef) = false) (hk : k ≠ "") (hv : v ≠ "") :
    getRun st argsG = ⟨RetVal.self, none, none, none, none⟩ ∧
    (setRun st [vStr k, vStr f, vStr v]).command
      = some (Command.hmset (vStr k) (some [(f, vStr v)])) ∧
    (setRun st [vStr k, vStr f, vStr v]).syncCb = none ∧
    (delRun st [vStr k, vStr f]).command = some (Command.hdel [vStr k, vStr f]) ∧
    (delRun st [vStr k, vStr f]).syncCb = none := by
  have hset : setRun st [vStr k, vStr f, vStr v] = setCore st (vStr k) [vStr f] (vStr v) :=
    setRun_split st (vStr k) [vStr f] (vStr v)
  have hdel : delRun st [vStr k, vStr f] = delCore st (vStr k) [] (vStr f) :=
    delRun_split st (vStr k) [] (vStr f)
  refine ⟨?_, ?_, ?_, ?_, ?_⟩
  · unfold getRun getCore
    simp only [hcb]
    simp
  · rw [hset]
    simp [setCore, unwrapSingleArray, cacheKey, truthy, jsString, _stringify,
      isStringV, isBuffer, isFuncV, hk, hv]
  · rw [hset]
    simp [setCore, unwrapSingleArray, cacheKey, truthy, jsString, _stringify,
      isStringV, isBuffer, isFuncV, hk, hv]
  · rw [hdel]
    simp [delCore, unwrapSingleArray, cacheKey, truthy, isFuncV, hk]
  · rw [hdel]
    simp [delCore, unwrapSingleArray, cacheKey, truthy, isFuncV, hk]

/-- Claim C6, witness for the amended theorem at concrete inputs. -/
theorem missing_callback_behaviour_witness :
    getRun stdStore [vStr "icao", vStr "charlie"] = ⟨RetVal.self, none, none, none, none⟩ ∧
    (setRun stdStore [vStr "icao", vStr "alpha", vStr "dot"]).command
      = some (Command.hmset (vStr "icao") (some [("alpha", vStr "dot")])) ∧
    (setRun stdStore [vStr "icao", vStr "alpha", vStr "dot"]).syncCb = none ∧
    (delRun stdStore [vStr "icao", vStr "alpha"]).command
      = some (Command.hdel [vStr "icao", vStr "alpha"]) ∧
    (delRun stdStore [vStr "icao", vStr "alpha"]).syncCb = none :=
  missing_callback_behaviour stdStore [vStr "icao", vStr "charlie"] "icao" "alpha" "dot"
    rfl (by simp) (by simp)

/-- Claim C9: a write with a single plain-object data argument encodes
every value of the caller-supplied object in place before sending it:
the post-call contents observed by the caller (dataState) and the data
map of the issued hash-multi-set command are the same list, with every
value replaced by its encoded form. The in-place rewrite is modelled by
returning the post-call contents of the argument object. -/
theorem set_object_encoded_in_place (st : Store) (k : String)
    (entries : List (String × JSVal)) (hk : k ≠ "") :
    setRun st [vStr k, vObj entries, vFunc 0]
      = ⟨RetVal.self,
          some (Command.hmset (vStr k)
            (some (entries.map (fun p => (p.1, _stringify st p.2))))),
          none, none,
          some (entries.map (fun p => (p.1, _stringify st p.2)))⟩ := by
  rw [show setRun st [vStr k, vObj entries, vFunc 0]
      = setCore st (vStr k) [vObj entries] (vFunc 0) from
    setRun_split st (vStr k) [vObj entries] (vFunc 0)]
  simp [setCore, unwrapSingleArray, cacheKey, truthy, entriesOfValue, isObjectLike,
    isFuncV, hk]

/-- Claim C9, witness at a concrete store, key and object. -/
theorem set_object_encoded_in_place_witness :
    setRun stdStore [vStr "icao", vObj [("xray", vNum 13)], vFunc 0]
      = ⟨RetVal.self,
          some (Command.hmset (vStr "icao")
            (some ([("xray", vNum 13)].map (fun p => (p.1, _stringify stdStore p.2))))),
          none, none,
          some ([("xray", vNum 13)].map (fun p => (p.1, _stringify stdStore p.2)))⟩ :=
  set_object_encoded_in_place stdStore "icao" [("xray", vNum 13)] (by simp)

/-- Argument-list form of alternating field/value pairs, as a caller
would pass them to set. -/
def pairArgs : List (String × JSVal) → List JSVal
  | [] => []
  | (f, v) :: rest => vStr f :: v :: pairArgs rest

/-- An optional trailing argument. -/
def optList : Option JSVal → List JSVal
  | none => []
  | some t => [t]

/-- Assignment of a fresh property name appends it. -/
theorem objSet_fresh (m : List (String × JSVal)) (k : String) (v : JSVal)
    (h : ∀ p ∈ m, p.1 ≠ k) : objSet m k v = m ++ [(k, v)] := by
  have hany : m.any (fun p => p.1 == k) = false := by
    refine List.any_eq_false.mpr ?_
    intro p hp
    simpa using h p hp
  simp [objSet, hany]

/-- The pair-consuming loop of set builds exactly the encoded pairs, in
order, when the field names are distinct; a trailing unpaired argument
is dropped. -/
theorem buildPairs_eq (st : Store) (ps : List (String × JSVal)) :
    ∀ (m : List (String × JSVal)) (tr : Option JSVal),
      (ps.map Prod.fst).Nodup →
      (∀ x ∈ ps.map Prod.fst, ∀ q ∈ m, q.1 ≠ x) →
      buildPairs st m (pairArgs ps ++ optList tr)
        = m ++ ps.map (fun p => (p.1, _stringify st p.2)) := by
  induction ps with
  | nil =>
    intro m tr _ _
    cases tr with
    | none => simp [pairArgs, optList, buildPairs]
    | some t => simp [pairArgs, optList, buildPairs]
  | cons p ps' ih =>
    intro m tr hnodup hdisj
    obtain ⟨f, v⟩ := p
    have hfresh : ∀ q ∈ m, q.1 ≠ f := by
      intro q hq
      exact hdisj f (by simp) q hq
    have hstep : buildPairs st m (pairArgs ((f, v) :: ps') ++ optList tr)
        = buildPairs st (objSet m (jsString (vStr f)) (_stringify st v))
            (pairArgs ps' ++ optList tr) := by
      simp [pairArgs, buildPairs]
    rw [hstep]
    have hjs : jsString (vStr f) = f := by simp [jsString]
    rw [hjs, objSet_fresh m f (_stringify st v) hfresh]
    rw [List.map_cons] at hnodup
    have hcons := List.nodup_cons.mp hnodup
    have hdisj' : ∀ x ∈ ps'.map Prod.fst, ∀ q ∈ m ++ [(f, _stringify st v)], q.1 ≠ x := by
      intro x hx q hq
      rcases List.mem_append.mp hq with hqm | hqf
      · exact hdisj x (by simp [hx]) q hqm
      · have hq1 : q.1 = f := by
          simp at hqf
          simp [hqf]
        rw [hq1]
        intro hfx
        exact hcons.1 (hfx ▸ hx)
    rw [ih (m ++ [(f, _stringify st v)]) tr hcons.2 hdisj']
    simp

/-- Claim C7: a write with two or more remaining arguments (with an
optional trailing unpaired argument) sends exactly the alternating
field/value pairs, each value encoded, in order; the trailing unpaired
argument is dropped. Field names are assumed pairwise distinct, as the
data map cannot hold duplicates. -/
theorem set_alternating_pairs (st : Store) (k : String) (ps : List (String × JSVal))
    (tr : Option JSVal) (hk : k ≠ "") (hps : ps ≠ [])
    (hnodup : (ps.map Prod.fst).Nodup) :
    setRun st (vStr k :: (pairArgs ps ++ optList tr ++ [vFunc 0]))
      = ⟨RetVal.self,
          some (Command.hmset (vStr k)
            (some (ps.map (fun p => (p.1, _stringify st p.2))))),
          none, none, none⟩ := by
  have hmain : buildPairs st [] (pairArgs ps ++ optList tr)
      = ps.map (fun p => (p.1, _stringify st p.2)) := by
    have := buildPairs_eq st ps [] tr hnodup (by intro x hx q hq; simp at hq)
    simpa using this
  rw [show setRun st (vStr k :: (pairArgs ps ++ optList tr ++ [vFunc 0]))
      = setCore st (vStr k) (pairArgs ps ++ optList tr) (vFunc 0) from
    setRun_split st (vStr k) (pairArgs ps ++ optList tr) (vFunc 0)]
  cases ps with
  | nil => exact absurd rfl hps
  | cons p ps' =>
    obtain ⟨f, v⟩ := p
    cases ps' with
    | nil =>
      cases tr with
      | none =>
        simp [setCore, unwrapSingleArray, cacheKey, truthy, jsString, isFuncV, hk,
          pairArgs, optList]
      | some t =>
        simp [pairArgs, optList] at hmain ⊢
        simp [setCore, unwrapSingleArray, cacheKey, truthy, isFuncV, hk]
        simpa using hmain
    | cons q qs' =>
      obtain ⟨fq, vq⟩ := q
      simp [pairArgs, optList] at hmain ⊢
      simp [setCore, unwrapSingleArray, cacheKey, truthy, isFuncV, hk]
      simpa using hmain

/-- Claim C7, witness: two pairs and a trailing unpaired argument. -/
theorem set_alternating_pairs_witness :
    setRun stdStore (vStr "icao" ::
        (pairArgs [("alpha", vStr "dot"), ("bravo", vNum 2)]
          ++ optList (some (vStr "delta")) ++ [vFunc 0]))
      = ⟨RetVal.self,
          some (Command.hmset (vStr "icao")
            (some ([("alpha", vStr "dot"), ("bravo", vNum 2)].map
              (fun p => (p.1, _stringify stdStore p.2))))),
          none, none, none⟩ :=
  set_alternating_pairs stdStore "icao" [("alpha", vStr "dot"), ("bravo", vNum 2)]
    (some (vStr "delta")) (by simp) (by simp) (by simp)

/-- Each element handed to convertValue by Array.prototype.map receives
its index as the cast flag, and no index is the boolean false, so every
string element is tentatively JSON-parsed. -/
theorem mapIdxConvert_parses (names : List String) :
    ∀ i, mapIdxConvert i (names.map vStr)
      = names.map (fun s => (jsonParse s).getD (vStr s)) := by
  induction names with
  | nil => intro i; simp [mapIdxConvert]
  | cons s rest ih =>
    intro i
    simp [mapIdxConvert, convertValue, ih]

/-- Claim C10: keys and fields map the value decoder over the reply with
Array.prototype.map, which passes the element index as the cast flag;
since no index equals the boolean false, every returned name is
tentatively JSON-parsed regardless of the store configuration (the reply
handlers do not consult the store at all), so the key or field name 13
is delivered as the number 13. -/
theorem names_always_tentatively_parsed (err : Option String) (names : List String) :
    fieldsReply err (vArr (names.map vStr))
      = (err, vArr (names.map (fun s => (jsonParse s).getD (vStr s)))) ∧
    keysReply err (vArr (names.map vStr))
      = (err, vArr (names.map (fun s => (jsonParse s).getD (vStr s)))) ∧
    fieldsReply none (vArr [vStr "13"]) = (none, vArr [vNum 13]) ∧
    keysReply none (vArr [vStr "13"]) = (none, vArr [vNum 13]) := by
  refine ⟨?_, ?_, rfl, rfl⟩
  · simp [fieldsReply, mapIdxConvert_parses]
  · simp [keysReply, mapIdxConvert_parses]

/-! ### Number rendering and parsing lemmas -/

/-- Digit characters are digits. -/
theorem digitChar_isDigit : ∀ k < 10, isDigitCh (digitChar k) = true := by decide

/-- Code point of a digit character. -/
theorem digitChar_toNat : ∀ k < 10, (digitChar k).toNat = 48 + k := by decide

/-- A non-zero digit character is not the zero character. -/
theorem digitChar_ne_zero : ∀ k < 10, 0 < k → digitChar k ≠ '0' := by decide

/-- The decimal rendering is never empty. -/
theorem natChars_ne_nil (n : Nat) : natChars n ≠ [] := by
  unfold natChars
  split
  · simp
  · simp

/-- Every character of the decimal rendering is a digit. -/
theorem natChars_digits : ∀ n, ∀ c ∈ natChars n, isDigitCh c = true := by
  intro n
  induction n using Nat.strong_induction_on with
  | _ n ih =>
    unfold natChars
    split
    · next h =>
      intro c hc
      simp at hc
      subst hc
      exact digitChar_isDigit n h
    · next h =>
      intro c hc
      rcases List.mem_append.mp hc with h1 | h2
      · exact ih (n / 10) (Nat.div_lt_self (by omega) (by omega)) c h1
      · simp at h2
        subst h2
        exact digitChar_isDigit (n % 10) (Nat.mod_lt n (by omega))

/-- Folding one more digit. -/
theorem digitsVal_append_digit (xs : List Char) (c : Char) :
    digitsVal (xs ++ [c]) = 10 * digitsVal xs + (c.toNat - 48) := by
  simp [digitsVal, List.foldl_append]

/-- The decimal rendering evaluates back to the number. -/
theorem digitsVal_natChars : ∀ n, digitsVal (natChars n) = n := by
  intro n
  induction n using Nat.strong_induction_on with
  | _ n ih =>
    unfold natChars
    split
    · next h =>
      simp [digitsVal, digitChar_toNat n h]
    · next h =>
      rw [digitsVal_append_digit]
      rw [ih (n / 10) (Nat.div_lt_self (by omega) (by omega))]
      rw [digitChar_toNat (n % 10) (Nat.mod_lt n (by omega))]
      omega

/-- The decimal rendering of a positive number has no leading zero. -/
theorem natChars_headD_ne_zero : ∀ n, n ≠ 0 → (natChars n).headD '0' ≠ '0' := by
  intro n
  induction n using Nat.strong_induction_on with
  | _ n ih =>
    intro hn
    unfold natChars
    split
    · next h =>
      simpa using digitChar_ne_zero n h (by omega)
    · next h =>
      obtain ⟨a, as, hxs⟩ := List.exists_cons_of_ne_nil (natChars_ne_nil (n / 10))
      have hdiv : n / 10 ≠ 0 := by
        intro hz
        have : n < 10 := by omega
        exact h this
      have := ih (n / 10) (Nat.div_lt_self (by omega) (by omega)) hdiv
      rw [hxs] at this ⊢
      simpa using this

/-- takeDigits stops immediately on a valid continuation. -/
theorem takeDigits_notdigit (rest : List Char) (h : restOk rest = true) :
    takeDigits rest = ([], rest) := by
  cases rest with
  | nil => rfl
  | cons c t =>
    simp [restOk] at h
    simp [takeDigits, h.1]

/-- takeDigits consumes exactly a leading digit run. -/
theorem takeDigits_digits (ds : List Char) :
    ∀ rest, (∀ c ∈ ds, isDigitCh c = true) → restOk rest = true →
      takeDigits (ds ++ rest) = (ds, rest) := by
  induction ds with
  | nil =>
    intro rest _ h
    simpa using takeDigits_notdigit rest h
  | cons c cs ih =>
    intro rest hds h
    have hc : isDigitCh c = true := hds c (by simp)
    have hrec := ih rest (fun d hd => hds d (by simp [hd])) h
    simp [takeDigits, hc, hrec]

/-- A valid continuation does not begin with a fraction or exponent
marker. -/
theorem restOk_headD (rest : List Char) (h : restOk rest = true) :
    ¬ (rest.head?.getD ' ' = '.' ∨ rest.head?.getD ' ' = 'e' ∨ rest.head?.getD ' ' = 'E') := by
  cases rest with
  | nil => decide
  | cons c t =>
    simp [restOk] at h
    simp
    tauto

/-- The zero rendering. -/
theorem natChars_zero : natChars 0 = ['0'] := by
  unfold natChars
  rfl

/-- Evaluation of parseNum on an explicit optional sign and digit run
followed by a valid continuation. -/
theorem parseNum_eval (neg : Bool) (d : Char) (ds : List Char) (rest : List Char)
    (hdigits : ∀ c ∈ d :: ds, isDigitCh c = true)
    (hnz : 0 < ds.length → d ≠ '0')
    (h : restOk rest = true) :
    parseNum ((if neg then ['-'] else []) ++ (d :: ds) ++ rest)
      = some (vNum (if neg then -(digitsVal (d :: ds) : Int) else (digitsVal (d :: ds) : Int)),
          rest) := by
  have htd : takeDigits (d :: (ds ++ rest)) = (d :: ds, rest) := by
    have h0 := takeDigits_digits (d :: ds) rest hdigits h
    simpa using h0
  have hd : isDigitCh d = true := hdigits d (by simp)
  have hdm : d ≠ '-' := by
    intro hh
    rw [hh] at hd
    simp [isDigitCh] at hd
  have hext := restOk_headD rest h
  cases neg with
  | true =>
    simp [parseNum, hdm, htd]
    constructor
    · exact fun h1 h2 => hnz h1 h2
    · constructor
      · exact fun h1 => hext (Or.inl h1)
      · constructor
        · exact fun h1 => hext (Or.inr (Or.inl h1))
        · exact fun h1 => hext (Or.inr (Or.inr h1))
  | false =>
    simp [parseNum, hdm, htd]
    constructor
    · exact fun h1 h2 => hnz h1 h2
    · constructor
      · exact fun h1 => hext (Or.inl h1)
      · constructor
        · exact fun h1 => hext (Or.inr (Or.inl h1))
        · exact fun h1 => hext (Or.inr (Or.inr h1))

/-- Parsing the serialized form of an integer succeeds and consumes
exactly it, for any valid continuation. -/
theorem parseNum_intChars (n : Int) (rest : List Char) (h : restOk rest = true) :
    parseNum (intChars n ++ rest) = some (vNum n, rest) := by
  obtain ⟨d, ds, hds⟩ := List.exists_cons_of_ne_nil (natChars_ne_nil n.natAbs)
  have hdig : ∀ c ∈ d :: ds, isDigitCh c = true := by
    rw [← hds]
    exact natChars_digits n.natAbs
  have hnz : 0 < ds.length → d ≠ '0' := by
    intro hlen
    by_cases ha : n.natAbs = 0
    · rw [ha, natChars_zero] at hds
      injection hds with h1 h2
      rw [← h2] at hlen
      simp at hlen
    · have := natChars_headD_ne_zero n.natAbs ha
      rw [hds] at this
      simpa using this
  have hdv : (digitsVal (d :: ds) : Int) = (n.natAbs : Int) := by
    rw [← hds, digitsVal_natChars]
  by_cases hn : n < 0
  · have hform : intChars n ++ rest = (if (true : Bool) then ['-'] else []) ++ (d :: ds) ++ rest := by
      simp [intChars, hn, ← hds]
    rw [hform, parseNum_eval true d ds rest hdig hnz h]
    rw [hdv]
    rw [(by omega : -((n.natAbs : Nat) : Int) = n)]
    simp
  · have hform : intChars n ++ rest = (if (false : Bool) then ['-'] else []) ++ (d :: ds) ++ rest := by
      simp [intChars, hn, ← hds]
    rw [hform, parseNum_eval false d ds rest hdig hnz h]
    rw [hdv]
    rw [(by omega : ((n.natAbs : Nat) : Int) = n)]
    simp

/-! ### String escaping round trip -/

/-- Hexadecimal digits decode back. -/
theorem decodeHex_hexChar : ∀ k < 16, decodeHex (hexChar k) = some k := by decide

/-- Parsing an escaped string body recovers the original characters up
to the closing quote, with one fuel per decoded character plus one. -/
theorem parseStrBody_escape (s : List Char) :
    ∀ fuel acc rest, s.length + 1 ≤ fuel →
      parseStrBody fuel (escapeChars s ++ '"' :: rest) acc
        = some (String.mk (acc.reverse ++ s), rest) := by
  induction s with
  | nil =>
    intro fuel acc rest hf
    obtain ⟨f, rfl⟩ : ∃ f, fuel = f + 1 := ⟨fuel - 1, by omega⟩
    rw [show escapeChars [] ++ '"' :: rest = '"' :: rest from rfl]
    rw [show parseStrBody (f + 1) ('"' :: rest) acc = some (String.mk acc.reverse, rest) from rfl]
    simp
  | cons c cs ih =>
    intro fuel acc rest hf
    obtain ⟨f, rfl⟩ : ∃ f, fuel = f + 1 := ⟨fuel - 1, by omega⟩
    have hf2 : cs.length + 1 ≤ f := by
      simp at hf
      omega
    have hstep : escapeChars (c :: cs) ++ '"' :: rest
        = escapeChar c ++ (escapeChars cs ++ '"' :: rest) := by
      simp [escapeChars]
    rw [hstep]
    by_cases h1 : c = '"'
    · subst h1
      rw [show escapeChar '"' = ['\\', '"'] from rfl]
      rw [show parseStrBody (f + 1) (['\\', '"'] ++ (escapeChars cs ++ '"' :: rest)) acc
          = parseStrBody f (escapeChars cs ++ '"' :: rest) ('"' :: acc) from rfl]
      rw [ih f ('"' :: acc) rest hf2]
      simp
    · by_cases h2 : c = '\\'
      · subst h2
        rw [show escapeChar '\\' = ['\\', '\\'] from rfl]
        rw [show parseStrBody (f + 1) (['\\', '\\'] ++ (escapeChars cs ++ '"' :: rest)) acc
            = parseStrBody f (escapeChars cs ++ '"' :: rest) ('\\' :: acc) from rfl]
        rw [ih f ('\\' :: acc) rest hf2]
        simp
      · by_cases h3 : c = '\n'
        · subst h3
          rw [show escapeChar '\n' = ['\\', 'n'] from rfl]
          rw [show parseStrBody (f + 1) (['\\', 'n'] ++ (escapeChars cs ++ '"' :: rest)) acc
              = parseStrBody f (escapeChars cs ++ '"' :: rest) ('\n' :: acc) from rfl]
          rw [ih f ('\n' :: acc) rest hf2]
          simp
        · by_cases h4 : c = '\r'
          · subst h4
            rw [show escapeChar '\r' = ['\\', 'r'] from rfl]
            rw [show parseStrBody (f + 1) (['\\', 'r'] ++ (escapeChars cs ++ '"' :: rest)) acc
                = parseStrBody f (escapeChars cs ++ '"' :: rest) ('\r' :: acc) from rfl]
            rw [ih f ('\r' :: acc) rest hf2]
            simp
          · by_cases h5 : c = '\t'
            · subst h5
              rw [show escapeChar '\t' = ['\\', 't'] from rfl]
              rw [show parseStrBody (f + 1) (['\\', 't'] ++ (escapeChars cs ++ '"' :: rest)) acc
                  = parseStrBody f (escapeChars cs ++ '"' :: rest) ('\t' :: acc) from rfl]
              rw [ih f ('\t' :: acc) rest hf2]
              simp
            · by_cases h6 : c.toNat = 8
              · have hc : c = Char.ofNat 8 := by
                  rw [← Char.ofNat_toNat c, h6]
                subst hc
                rw [show escapeChar (Char.ofNat 8) = ['\\', 'b'] from rfl]
                rw [show parseStrBody (f + 1) (['\\', 'b'] ++ (escapeChars cs ++ '"' :: rest)) acc
                    = parseStrBody f (escapeChars cs ++ '"' :: rest) (Char.ofNat 8 :: acc) from rfl]
                rw [ih f (Char.ofNat 8 :: acc) rest hf2]
                simp
              · by_cases h7 : c.toNat = 12
                · have hc : c = Char.ofNat 12 := by
                    rw [← Char.ofNat_toNat c, h7]
                  subst hc
                  rw [show escapeChar (Char.ofNat 12) = ['\\', 'f'] from rfl]
                  rw [show parseStrBody (f + 1) (['\\', 'f'] ++ (escapeChars cs ++ '"' :: rest)) acc
                      = parseStrBody f (escapeChars cs ++ '"' :: rest) (Char.ofNat 12 :: acc) from rfl]
                  rw [ih f (Char.ofNat 12 :: acc) rest hf2]
                  simp
                · by_cases h8 : c.toNat < 32
                  · have hesc : escapeChar c
                        = ['\\', 'u', '0', '0', hexChar (c.toNat / 16), hexChar (c.toNat % 16)] := by
                      simp [escapeChar, h1, h2, h3, h4, h5, h6, h7, h8]
                    rw [hesc]
                    have hred : parseStrBody (f + 1)
                        (['\\', 'u', '0', '0', hexChar (c.toNat / 16), hexChar (c.toNat % 16)]
                          ++ (escapeChars cs ++ '"' :: rest)) acc
                        = (match (some 0 : Option Nat), (some 0 : Option Nat),
                              decodeHex (hexChar (c.toNat / 16)), decodeHex (hexChar (c.toNat % 16)) with
                           | some a, some b, some c2, some d =>
                             charOfNat (((a * 16 + b) * 16 + c2) * 16 + d)
                           | _, _, _, _ => none).bind
                            (fun ch => parseStrBody f (escapeChars cs ++ '"' :: rest) (ch :: acc)) := rfl
                    rw [hred]
                    rw [decodeHex_hexChar (c.toNat / 16) (by omega)]
                    rw [decodeHex_hexChar (c.toNat % 16) (by omega)]
                    show (charOfNat (((0 * 16 + 0) * 16 + c.toNat / 16) * 16 + c.toNat % 16)).bind
                        (fun ch => parseStrBody f (escapeChars cs ++ '"' :: rest) (ch :: acc))
                      = some (String.mk (acc.reverse ++ c :: cs), rest)
                    rw [(by omega : ((0 * 16 + 0) * 16 + c.toNat / 16) * 16 + c.toNat % 16 = c.toNat)]
                    rw [show charOfNat c.toNat = some (Char.ofNat c.toNat) from by
                      simp [charOfNat, (by omega : c.toNat < 55296)]]
                    rw [Char.ofNat_toNat]
                    show parseStrBody f (escapeChars cs ++ '"' :: rest) (c :: acc)
                      = some (String.mk (acc.reverse ++ c :: cs), rest)
                    rw [ih f (c :: acc) rest hf2]
                    simp
                  · have hesc : escapeChar c = [c] := by
                      simp [escapeChar, h1, h2, h3, h4, h5, h6, h7, h8]
                    rw [hesc]
                    rw [show ([c] ++ (escapeChars cs ++ '"' :: rest) : List Char)
                        = c :: (escapeChars cs ++ '"' :: rest) from rfl]
                    have hrec : parseStrBody (f + 1) (c :: (escapeChars cs ++ '"' :: rest)) acc
                        = parseStrBody f (escapeChars cs ++ '"' :: rest) (c :: acc) := by
                      simp [parseStrBody, h1, h2, h8]
                    rw [hrec, ih f (c :: acc) rest hf2]
                    simp

/-! ### Serializer facts -/

/-- The fuel measure is positive. -/
theorem jsize_pos (v : JSVal) : 1 ≤ jsize v := by
  cases v <;> simp [jsize]

/-- The list fuel measure is positive. -/
theorem jsizeL_pos (l : List JSVal) : 1 ≤ jsizeL l := by
  cases l with
  | nil => simp [jsizeL]
  | cons x xs =>
    have := jsize_pos x
    simp [jsizeL]
    omega

/-- The member fuel measure is positive. -/
theorem jsizeM_pos (m : List (String × JSVal)) : 1 ≤ jsizeM m := by
  cases m with
  | nil => simp [jsizeM]
  | cons p rest =>
    obtain ⟨k, v⟩ := p
    have := jsize_pos v
    simp [jsizeM]
    omega

/-- JSON trees always serialize. -/
theorem serV_tree (v : JSVal) (h : isJsonTree v = true) : serV v = some (serChars v) := by
  cases v <;> simp_all [serV, serChars, isJsonTree]

/-- JSON trees are not buffers. -/
theorem tree_not_buffer (v : JSVal) (h : isJsonTree v = true) : isBuffer v = false := by
  cases v <;> simp_all [isBuffer, isJsonTree]

/-- A digit is not a bracket, brace, or letter the value dispatcher
tests for. -/
theorem digit_ne_special (d : Char) (hd : isDigitCh d = true) :
    d ≠ 'n' ∧ d ≠ 't' ∧ d ≠ 'f' ∧ d ≠ '"' ∧ d ≠ '[' ∧ d ≠ '\x7b' ∧ d ≠ ']' ∧ d ≠ '\x7d' := by
  refine ⟨?_, ?_, ?_, ?_, ?_, ?_, ?_, ?_⟩ <;>
    (intro hh; rw [hh] at hd; simp [isDigitCh] at hd)

/-- The serialization of a JSON tree is a non-empty character list whose
head is not a closing bracket or brace. -/
theorem serChars_head (v : JSVal) (h : isJsonTree v = true) :
    ∃ c t, serChars v = c :: t ∧ c ≠ ']' ∧ c ≠ '\x7d' := by
  cases v with
  | vNull =>
    refine ⟨'n', ['u', 'l', 'l'], ?_, by decide, by decide⟩
    simp [serChars, serV]
  | vBool b =>
    cases b with
    | true =>
      refine ⟨'t', ['r', 'u', 'e'], ?_, by decide, by decide⟩
      simp [serChars, serV]
    | false =>
      refine ⟨'f', ['a', 'l', 's', 'e'], ?_, by decide, by decide⟩
      simp [serChars, serV]
  | vNum n =>
    by_cases hn : n < 0
    · refine ⟨'-', natChars n.natAbs, ?_, by decide, by decide⟩
      simp [serChars, serV, intChars, hn]
    · obtain ⟨d, ds, hds⟩ := List.exists_cons_of_ne_nil (natChars_ne_nil n.natAbs)
      have hd : isDigitCh d = true := natChars_digits n.natAbs d (by rw [hds]; simp)
      have hspec := digit_ne_special d hd
      refine ⟨d, ds, ?_, hspec.2.2.2.2.2.2.1, hspec.2.2.2.2.2.2.2⟩
      simp [serChars, serV, intChars, hn, hds]
  | vStr str =>
    refine ⟨'"', escapeChars str.data ++ ['"'], ?_, by decide, by decide⟩
    simp [serChars, serV, quoteChars]
  | vArr l =>
    refine ⟨'[', joinComma (serItems l) ++ [']'], ?_, by decide, by decide⟩
    simp [serChars, serV]
  | vObj m =>
    refine ⟨'\x7b', joinComma (serMems m) ++ ['\x7d'], ?_, by decide, by decide⟩
    simp [serChars, serV]
  | vUndef => simp [isJsonTree] at h
  | vNaN => simp [isJsonTree] at h
  | vBuf b => simp [isJsonTree] at h
  | vFunc k => simp [isJsonTree] at h

/-- The value dispatcher falls through to the number parser on a
serialized integer. -/
theorem parseVal_num (f : Nat) (n : Int) (rest : List Char) (h : restOk rest = true) :
    parseVal (f + 1) (intChars n ++ rest) = some (vNum n, rest) := by
  by_cases hn : n < 0
  · rw [show intChars n = '-' :: natChars n.natAbs from by simp [intChars, hn]]
    rw [show parseVal (f + 1) (('-' :: natChars n.natAbs) ++ rest)
        = parseNum (('-' :: natChars n.natAbs) ++ rest) from rfl]
    rw [show ('-' :: natChars n.natAbs : List Char) = intChars n from by simp [intChars, hn]]
    exact parseNum_intChars n rest h
  · obtain ⟨d, ds, hds⟩ := List.exists_cons_of_ne_nil (natChars_ne_nil n.natAbs)
    have hd : isDigitCh d = true := natChars_digits n.natAbs d (by rw [hds]; simp)
    have hspec := digit_ne_special d hd
    rw [show intChars n = natChars n.natAbs from by simp [intChars, hn], hds]
    have hv : parseVal (f + 1) ((d :: ds) ++ rest) = parseNum ((d :: ds) ++ rest) := by
      simp [parseVal, hspec.1, hspec.2.1, hspec.2.2.1, hspec.2.2.2.1,
        hspec.2.2.2.2.1, hspec.2.2.2.2.2.1]
    rw [hv, ← hds]
    rw [show (natChars n.natAbs : List Char) = intChars n from by simp [intChars, hn]]
    exact parseNum_intChars n rest h

/-- Rebuilding a string from its character data is the identity. -/
theorem string_mk_data (s : String) : String.mk s.data = s := rfl

/-- Round trip of the modelled JSON serializer and parser on JSON trees:
parsing a serialized value consumes exactly it, for any valid
continuation and sufficient fuel. -/
theorem parse_serChars : ∀ fuel,
    (∀ v rest, isJsonTree v = true → jsize v ≤ fuel → restOk rest = true →
      parseVal fuel (serChars v ++ rest) = some (v, rest)) ∧
    (∀ l rest, l ≠ [] → isJsonTreeL l = true → jsizeL l ≤ fuel → restOk rest = true →
      parseItems fuel (joinComma (serItems l) ++ ']' :: rest) = some (l, rest)) ∧
    (∀ m rest, m ≠ [] → isJsonTreeM m = true → jsizeM m ≤ fuel → restOk rest = true →
      parseMems fuel (joinComma (serMems m) ++ '\x7d' :: rest) = some (m, rest)) := by
  intro fuel
  induction fuel with
  | zero =>
    refine ⟨fun v rest _ hsz _ => absurd hsz (by have := jsize_pos v; omega),
            fun l rest _ _ hsz _ => absurd hsz (by have := jsizeL_pos l; omega),
            fun m rest _ _ hsz _ => absurd hsz (by have := jsizeM_pos m; omega)⟩
  | succ f ih =>
    obtain ⟨ihv, ihl, ihm⟩ := ih
    refine ⟨?_, ?_, ?_⟩
    · intro v rest htree hsz hrest
      cases v with
      | vUndef => simp [isJsonTree] at htree
      | vNaN => simp [isJsonTree] at htree
      | vBuf b => simp [isJsonTree] at htree
      | vFunc k => simp [isJsonTree] at htree
      | vNull =>
        rw [show serChars vNull = ['n', 'u', 'l', 'l'] from by simp [serChars, serV]]
        rfl
      | vBool b =>
        cases b with
        | true =>
          rw [show serChars (vBool true) = ['t', 'r', 'u', 'e'] from by simp [serChars, serV]]
          rfl
        | false =>
          rw [show serChars (vBool false) = ['f', 'a', 'l', 's', 'e'] from by
            simp [serChars, serV]]
          rfl
      | vNum n =>
        rw [show serChars (vNum n) = intChars n from by simp [serChars, serV]]
        exact parseVal_num f n rest hrest
      | vStr str =>
        rw [show serChars (vStr str) ++ rest
            = '"' :: (escapeChars str.data ++ '"' :: rest) from by
          simp [serChars, serV, quoteChars]]
        have hlen : str.data.length + 1 ≤ f := by
          have h2 : str.length + 2 ≤ f + 1 := by simpa [jsize] using hsz
          have h3 : str.length = str.data.length := rfl
          omega
        have hkey := parseStrBody_escape str.data f [] rest hlen
        simp at hkey
        rw [show parseVal (f + 1) ('"' :: (escapeChars str.data ++ '"' :: rest))
            = (match parseStrBody f (escapeChars str.data ++ '"' :: rest) [] with
               | some (s2, r) => some (vStr s2, r)
               | none => none) from rfl]
        rw [hkey]
      | vArr l =>
        cases l with
        | nil =>
          rw [show serChars (vArr []) = ['[', ']'] from by
            simp [serChars, serV, serItems, joinComma]]
          rfl
        | cons x xs =>
          have htx : isJsonTree x = true ∧ isJsonTreeL xs = true := by
            simpa [isJsonTree, isJsonTreeL] using htree
          have hsx : serV x = some (serChars x) := serV_tree x htx.1
          have hsizeL : jsizeL (x :: xs) ≤ f := by
            have h2 : 1 + jsizeL (x :: xs) ≤ f + 1 := by simpa [jsize] using hsz
            omega
          have hitems := ihl (x :: xs) rest (by simp)
            (by simp [isJsonTreeL, htx.1, htx.2]) hsizeL hrest
          obtain ⟨c2, t2, hh, hc2r, hc2b⟩ := serChars_head x htx.1
          obtain ⟨t3, ht3⟩ : ∃ t3, joinComma (serItems (x :: xs)) ++ ']' :: rest = c2 :: t3 := by
            have hserx : serItems (x :: xs) = serChars x :: serItems xs := by
              simp [serItems, hsx]
            rw [hserx]
            cases hsi : serItems xs with
            | nil => exact ⟨t2 ++ ']' :: rest, by simp [joinComma, hh]⟩
            | cons p ps =>
              exact ⟨t2 ++ (',' :: joinComma (p :: ps)) ++ ']' :: rest, by
                simp [joinComma, hh]⟩
          rw [show serChars (vArr (x :: xs)) ++ rest
              = '[' :: (joinComma (serItems (x :: xs)) ++ ']' :: rest) from by
            simp [serChars, serV]]
          rw [ht3] at hitems ⊢
          simp [parseVal, hc2r, hitems]
      | vObj m =>
        cases m with
        | nil =>
          rw [show serChars (vObj []) = ['\x7b', '\x7d'] from by
            simp [serChars, serV, serMems, joinComma]]
          rfl
        | cons p ms =>
          obtain ⟨k, v⟩ := p
          have htx : isJsonTree v = true ∧ isJsonTreeM ms = true := by
            simpa [isJsonTree, isJsonTreeM] using htree
          have hsv : serV v = some (serChars v) := serV_tree v htx.1
          have hsizeM : jsizeM ((k, v) :: ms) ≤ f := by
            have h2 : 1 + jsizeM ((k, v) :: ms) ≤ f + 1 := by simpa [jsize] using hsz
            omega
          have hmems := ihm ((k, v) :: ms) rest (by simp)
            (by simp [isJsonTreeM, htx.1, htx.2]) hsizeM hrest
          obtain ⟨t3, ht3⟩ : ∃ t3,
              joinComma (serMems ((k, v) :: ms)) ++ '\x7d' :: rest = '"' :: t3 := by
            have hserm : serMems ((k, v) :: ms)
                = (quoteChars k.data ++ ':' :: serChars v) :: serMems ms := by
              simp [serMems, hsv]
            rw [hserm]
            cases hsi : serMems ms with
            | nil =>
              exact ⟨(escapeChars k.data ++ ['"']) ++ ':' :: serChars v ++ '\x7d' :: rest, by
                simp [joinComma, quoteChars]⟩
            | cons p2 ps =>
              exact ⟨(escapeChars k.data ++ ['"']) ++ ':' :: serChars v
                  ++ (',' :: joinComma (p2 :: ps)) ++ '\x7d' :: rest, by
                simp [joinComma, quoteChars]⟩
          rw [show serChars (vObj ((k, v) :: ms)) ++ rest
              = '\x7b' :: (joinComma (serMems ((k, v) :: ms)) ++ '\x7d' :: rest) from by
            simp [serChars, serV]]
          rw [ht3] at hmems ⊢
          simp [parseVal, hmems]
    · intro l rest hne htree hsz hrest
      cases l with
      | nil => exact absurd rfl hne
      | cons x xs =>
        have htx : isJsonTree x = true ∧ isJsonTreeL xs = true := by
          simpa [isJsonTreeL] using htree
        have hsx := serV_tree x htx.1
        have hserx : serItems (x :: xs) = serChars x :: serItems xs := by
          simp [serItems, hsx]
        cases xs with
        | nil =>
          have hsize : jsize x ≤ f := by
            have h2 := hsz
            simp only [jsizeL] at h2
            omega
          have hx := ihv x (']' :: rest) htx.1 hsize rfl
          rw [show joinComma (serItems [x]) ++ ']' :: rest = serChars x ++ ']' :: rest from by
            simp [hserx, joinComma, serItems, hsx]]
          simp [parseItems, hx]
        | cons y ys =>
          have hsizex : jsize x ≤ f := by
            have h2 := hsz
            simp only [jsizeL] at h2
            have := jsize_pos y
            omega
          have hsizeyys : jsizeL (y :: ys) ≤ f := by
            have h2 := hsz
            simp only [jsizeL] at h2 ⊢
            have := jsize_pos x
            omega
          have hcont : joinComma (serItems (x :: y :: ys)) ++ ']' :: rest
              = serChars x ++ ',' :: (joinComma (serItems (y :: ys)) ++ ']' :: rest) := by
            have hsery : serItems (y :: ys)
                = ((serV y).getD ['n', 'u', 'l', 'l']) :: serItems ys := by
              simp [serItems]
            rw [hserx, hsery]
            simp [joinComma]
          rw [hcont]
          have hx := ihv x (',' :: (joinComma (serItems (y :: ys)) ++ ']' :: rest)) htx.1
            hsizex rfl
          have hys := ihl (y :: ys) rest (by simp) htx.2 hsizeyys hrest
          simp [parseItems, hx, hys]
    · intro m rest hne htree hsz hrest
      cases m with
      | nil => exact absurd rfl hne
      | cons p ms =>
        obtain ⟨k, v⟩ := p
        have htx : isJsonTree v = true ∧ isJsonTreeM ms = true := by
          simpa [isJsonTreeM] using htree
        have hsv := serV_tree v htx.1
        have hserm : serMems ((k, v) :: ms)
            = (quoteChars k.data ++ ':' :: serChars v) :: serMems ms := by
          simp [serMems, hsv]
        have hklen : k.data.length + 1 ≤ f := by
          have h2 := hsz
          simp only [jsizeM] at h2
          have h3 : k.length = k.data.length := rfl
          have h4 := jsize_pos v
          have h5 := jsizeM_pos ms
          omega
        have hjv : jsize v ≤ f := by
          have h2 := hsz
          simp only [jsizeM] at h2
          have h5 := jsizeM_pos ms
          omega
        cases ms with
        | nil =>
          have hcont : joinComma (serMems [(k, v)]) ++ '\x7d' :: rest
              = '"' :: (escapeChars k.data ++ '"' :: (':' :: (serChars v ++ '\x7d' :: rest))) := by
            rw [hserm]
            simp [joinComma, quoteChars]
          rw [hcont]
          have hkey := parseStrBody_escape k.data f []
            (':' :: (serChars v ++ '\x7d' :: rest)) hklen
          simp at hkey
          have hv := ihv v ('\x7d' :: rest) htx.1 hjv rfl
          simp [parseMems, hkey, hv, string_mk_data]
        | cons q qs =>
          obtain ⟨k2, v2⟩ := q
          have htq : isJsonTree v2 = true ∧ isJsonTreeM qs = true := by
            simpa [isJsonTreeM] using htx.2
          have hsv2 := serV_tree v2 htq.1
          have hmsize : jsizeM ((k2, v2) :: qs) ≤ f := by
            have h2 := hsz
            simp only [jsizeM] at h2 ⊢
            have h4 := jsize_pos v
            omega
          have hcont : joinComma (serMems ((k, v) :: (k2, v2) :: qs)) ++ '\x7d' :: rest
              = '"' :: (escapeChars k.data ++ '"' :: (':' :: (serChars v
                  ++ ',' :: (joinComma (serMems ((k2, v2) :: qs)) ++ '\x7d' :: rest)))) := by
            rw [hserm]
            have hserm2 : serMems ((k2, v2) :: qs)
                = (quoteChars k2.data ++ ':' :: serChars v2) :: serMems qs := by
              simp [serMems, hsv2]
            rw [hserm2]
            simp [joinComma, quoteChars]
          rw [hcont]
          have hkey := parseStrBody_escape k.data f []
            (':' :: (serChars v ++ ',' :: (joinComma (serMems ((k2, v2) :: qs))
              ++ '\x7d' :: rest))) hklen
          simp at hkey
          have hv := ihv v
            (',' :: (joinComma (serMems ((k2, v2) :: qs)) ++ '\x7d' :: rest)) htx.1 hjv rfl
          have hqs := ihm ((k2, v2) :: qs) rest (by simp) htx.2 hmsize hrest
          simp [parseMems, hkey, hv, hqs, string_mk_data]

/-- Escaping one character produces at least one character. -/
theorem escapeChar_length_pos (c : Char) : 1 ≤ (escapeChar c).length := by
  simp only [escapeChar]
  split_ifs <;> simp

/-- Escaping does not shorten a string. -/
theorem escapeChars_length_ge (cs : List Char) : cs.length ≤ (escapeChars cs).length := by
  induction cs with
  | nil => simp [escapeChars]
  | cons c rest ih =>
    have := escapeChar_length_pos c
    simp [escapeChars]
    omega

/-- The fuel measure of a JSON tree is bounded by twice the length of
its serialization (plus slack for lists), so the generous fuel budget of
jsonParse always suffices. -/
theorem jsize_bound : ∀ bound,
    (∀ v, jsize v ≤ bound → isJsonTree v = true → jsize v ≤ 2 * (serChars v).length) ∧
    (∀ l, jsizeL l ≤ bound → isJsonTreeL l = true →
      jsizeL l ≤ 2 * (joinComma (serItems l)).length + 3) ∧
    (∀ m, jsizeM m ≤ bound → isJsonTreeM m = true →
      jsizeM m ≤ 2 * (joinComma (serMems m)).length + 3) := by
  intro bound
  induction bound with
  | zero =>
    refine ⟨fun v hsz _ => absurd hsz (by have := jsize_pos v; omega),
            fun l hsz _ => absurd hsz (by have := jsizeL_pos l; omega),
            fun m hsz _ => absurd hsz (by have := jsizeM_pos m; omega)⟩
  | succ b ih =>
    obtain ⟨ihv, ihl, ihm⟩ := ih
    refine ⟨?_, ?_, ?_⟩
    · intro v hsz htree
      cases v with
      | vUndef => simp [isJsonTree] at htree
      | vNaN => simp [isJsonTree] at htree
      | vBuf s2 => simp [isJsonTree] at htree
      | vFunc k => simp [isJsonTree] at htree
      | vNull => simp [jsize, serChars, serV]
      | vBool b2 => cases b2 <;> simp [jsize, serChars, serV]
      | vNum n =>
        have h1 : 1 ≤ (intChars n).length := by
          by_cases hn : n < 0
          · simp [intChars, hn]
          · have h2 := natChars_ne_nil n.natAbs
            simp [intChars, hn]
            exact List.length_pos.mpr h2
        have hser : serChars (vNum n) = intChars n := by simp [serChars, serV]
        simp only [jsize]
        rw [hser]
        omega
      | vStr str =>
        have hser : serChars (vStr str) = quoteChars str.data := by simp [serChars, serV]
        have hq : (quoteChars str.data).length = (escapeChars str.data).length + 2 := by
          simp [quoteChars]
        have hesc := escapeChars_length_ge str.data
        have h3 : str.length = str.data.length := rfl
        simp only [jsize]
        rw [hser]
        omega
      | vArr l =>
        cases l with
        | nil => simp [jsize, jsizeL, serChars, serV, serItems, joinComma]
        | cons x xs =>
          have hL : jsizeL (x :: xs) ≤ b := by
            simp only [jsize] at hsz
            omega
          have htL : isJsonTreeL (x :: xs) = true := by simpa [isJsonTree] using htree
          have hrec := ihl (x :: xs) hL htL
          have hser : serChars (vArr (x :: xs))
              = '[' :: (joinComma (serItems (x :: xs)) ++ [']']) := by
            simp [serChars, serV]
          have hlen : (serChars (vArr (x :: xs))).length
              = (joinComma (serItems (x :: xs))).length + 2 := by
            rw [hser]
            simp
          simp only [jsize]
          omega
      | vObj m =>
        cases m with
        | nil => simp [jsize, jsizeM, serChars, serV, serMems, joinComma]
        | cons p ms =>
          have hM : jsizeM (p :: ms) ≤ b := by
            simp only [jsize] at hsz
            omega
          have htM : isJsonTreeM (p :: ms) = true := by simpa [isJsonTree] using htree
          have hrec := ihm (p :: ms) hM htM
          have hser : serChars (vObj (p :: ms))
              = '\x7b' :: (joinComma (serMems (p :: ms)) ++ ['\x7d']) := by
            simp [serChars, serV]
          have hlen : (serChars (vObj (p :: ms))).length
              = (joinComma (serMems (p :: ms))).length + 2 := by
            rw [hser]
            simp
          simp only [jsize]
          omega
    · intro l hsz htree
      cases l with
      | nil => simp [jsizeL]
      | cons x xs =>
        have htx : isJsonTree x = true ∧ isJsonTreeL xs = true := by
          simpa [isJsonTreeL] using htree
        have hx : jsize x ≤ b := by
          simp only [jsizeL] at hsz
          have := jsizeL_pos xs
          omega
        have hbx := ihv x hx htx.1
        have hserx : serItems (x :: xs) = serChars x :: serItems xs := by
          simp [serItems, serV_tree x htx.1]
        cases xs with
        | nil =>
          have hjoin : joinComma (serItems [x]) = serChars x := by
            simp [hserx, serItems, joinComma, serV_tree x htx.1]
          have hlen : (joinComma (serItems [x])).length = (serChars x).length := by
            rw [hjoin]
          simp only [jsizeL]
          omega
        | cons y ys =>
          have hxs : jsizeL (y :: ys) ≤ b := by
            simp only [jsizeL] at hsz ⊢
            have := jsize_pos x
            omega
          have hys2 := ihl (y :: ys) hxs htx.2
          have hjoin : (joinComma (serItems (x :: y :: ys))).length
              = (serChars x).length + 1 + (joinComma (serItems (y :: ys))).length := by
            have hsery : serItems (y :: ys)
                = ((serV y).getD ['n', 'u', 'l', 'l']) :: serItems ys := by
              simp [serItems]
            rw [hserx, hsery]
            simp [joinComma]
            omega
          simp only [jsizeL] at hys2 ⊢
          omega
    · intro m hsz htree
      cases m with
      | nil => simp [jsizeM]
      | cons p ms =>
        obtain ⟨k, v⟩ := p
        have htx : isJsonTree v = true ∧ isJsonTreeM ms = true := by
          simpa [isJsonTreeM] using htree
        have hv : jsize v ≤ b := by
          simp only [jsizeM] at hsz
          have := jsizeM_pos ms
          omega
        have hbv := ihv v hv htx.1
        have hkey : k.length ≤ (escapeChars k.data).length := by
          have := escapeChars_length_ge k.data
          have h3 : k.length = k.data.length := rfl
          omega
        have hserm : serMems ((k, v) :: ms)
            = (quoteChars k.data ++ ':' :: serChars v) :: serMems ms := by
          simp [serMems, serV_tree v htx.1]
        have hmemlen : (quoteChars k.data ++ ':' :: serChars v).length
            = (escapeChars k.data).length + 3 + (serChars v).length := by
          simp [quoteChars]
          omega
        cases ms with
        | nil =>
          have hjoin : joinComma (serMems [(k, v)]) = quoteChars k.data ++ ':' :: serChars v := by
            simp [hserm, serMems, joinComma, serV_tree v htx.1]
          have hlen : (joinComma (serMems [(k, v)])).length
              = (escapeChars k.data).length + 3 + (serChars v).length := by
            rw [hjoin, hmemlen]
          simp only [jsizeM]
          omega
        | cons q qs =>
          obtain ⟨k2, v2⟩ := q
          have hms : jsizeM ((k2, v2) :: qs) ≤ b := by
            simp only [jsizeM] at hsz ⊢
            have := jsize_pos v
            omega
          have hqs2 := ihm ((k2, v2) :: qs) hms htx.2
          have hjoin : (joinComma (serMems ((k, v) :: (k2, v2) :: qs))).length
              = (escapeChars k.data).length + 3 + (serChars v).length + 1
                + (joinComma (serMems ((k2, v2) :: qs))).length := by
            have htq : isJsonTree v2 = true ∧ isJsonTreeM qs = true := by
              simpa [isJsonTreeM] using htx.2
            have hserm2 : serMems ((k2, v2) :: qs)
                = (quoteChars k2.data ++ ':' :: serChars v2) :: serMems qs := by
              simp [serMems, serV_tree v2 htq.1]
            rw [hserm, hserm2]
            simp [joinComma, quoteChars]
            omega
          simp only [jsizeM] at hqs2 ⊢
          omega

/-- The fuel budget of jsonParse suffices for any JSON tree. -/
theorem jsize_le_serChars (v : JSVal) (h : isJsonTree v = true) :
    jsize v ≤ 2 * (serChars v).length :=
  (jsize_bound (jsize v)).1 v (le_refl _) h

/-- The modelled JSON.parse inverts the modelled JSON.stringify on JSON
trees. -/
theorem jsonParse_serChars (v : JSVal) (h : isJsonTree v = true) :
    jsonParse (String.mk (serChars v)) = some v := by
  unfold jsonParse
  have hlen : (String.mk (serChars v)).length = (serChars v).length := rfl
  have hfuel : jsize v ≤ 2 * (String.mk (serChars v)).length + 2 := by
    have := jsize_le_serChars v h
    omega
  have hmain := (parse_serChars (2 * (String.mk (serChars v)).length + 2)).1 v [] h hfuel rfl
  simp at hmain
  have hdata : (String.mk (serChars v)).data = serChars v := rfl
  rw [hdata, hlen, hmain]

/-- Claim C2, counterexample: NaN is a value that is neither a raw byte
buffer nor a string, yet with autoCast enabled the round trip fails: the
host JSON.stringify renders NaN as the text null, which decodes to the
null value, not NaN. -/
theorem stringify_parse_nan_counterexample :
    isBuffer vNaN = false ∧ isStringV vNaN = false ∧
    _stringify stdStore vNaN = vStr "null" ∧
    _parse stdStore (_stringify stdStore vNaN) = vNull ∧
    vNull ≠ vNaN := by
  have h1 : _stringify stdStore vNaN = vStr "null" := by
    simp [_stringify, stdStore, isBuffer, isStringV, jsonStringify, serV]
  refine ⟨rfl, rfl, h1, ?_, by simp⟩
  rw [h1]
  rfl

/-- Claim C2 (amended): for every JSON-representable value v (null,
booleans, integer numbers, and arrays and objects built from these and
strings) that is not itself a string and not a buffer, on a store with
autoCast enabled, the encoding of v is the canonical JSON text of v and
decoding it returns a value equal to v. Values outside the JSON domain
(NaN, undefined, functions, and containers holding them) are excluded:
the counterexample shows NaN round-trips to null. -/
theorem stringify_parse_roundtrip (st : Store) (v : JSVal)
    (hc : st.autoCast = true) (ht : isJsonTree v = true) (hs : isStringV v = false) :
    _stringify st v = vStr (String.mk (serChars v)) ∧
    _parse st (_stringify st v) = v := by
  have hbuf := tree_not_buffer v ht
  have hstr : _stringify st v = vStr (String.mk (serChars v)) := by
    simp [_stringify, hc, hbuf, hs, jsonStringify, serV_tree v ht]
  refine ⟨hstr, ?_⟩
  rw [hstr]
  have hparse := jsonParse_serChars v ht
  simp [_parse, isBuffer, convertValue, hc, hparse]

/-- Claim C2, witness: the object holding field xray with value 13
encodes to its canonical JSON text and decodes back to itself. -/
theorem stringify_parse_roundtrip_witness :
    _stringify stdStore (vObj [("xray", vNum 13)])
        = vStr (String.mk (serChars (vObj [("xray", vNum 13)]))) ∧
    _parse stdStore (_stringify stdStore (vObj [("xray", vNum 13)]))
        = vObj [("xray", vNum 13)] :=
  stringify_parse_roundtrip stdStore (vObj [("xray", vNum 13)]) rfl
    (by simp [isJsonTree, isJsonTreeM]) rfl

end CachetreeRedis
